import Mathlib

/-!
Verification of the MGSMT specification against the repository's code.

The repository's surface under `src/` holds the demonstration notebook
(`run_parser`, `process_example`) and the README; the deduction engine
(lexicon model, bounded derivation schema, constraint assembler, solver
driver, derivation extractor) is the `mgsmt` Python package, which is not
part of `src/`.  Following the specification (sections 2-4 and 8 of
`spec.md`), the engine is modelled here as a shallow embedding: a
Stabler-style Minimalist Grammar evaluator over derivation trees, a
bounded-schema satisfaction predicate, and a fuel-based solver driver with
blocking-clause enumeration over an abstract backend oracle.  The notebook
functions are embedded directly from their Python source.
-/

namespace MGSMT

/-- Modelled from the spec: the engine's `Feature` type is missing from
`src/`.  A feature is a (name, polarity) pair with polarity in
{selector, selectee/category, licensor, licensee}; `selh` is the
head-movement-triggering selector variant backing the head-move
operation. -/
inductive Feature where
  | sel (n : String)
  | selh (n : String)
  | cat (n : String)
  | lic (n : String)
  | lce (n : String)
deriving DecidableEq, Repr

/-- Modelled from the spec: the engine's `LexicalItem` is missing from
`src/`.  An ordered sequence of features, an optional phonological form
(empty list marks a covert/empty item) and an optional semantic
denotation. -/
structure LexicalItem where
  phon : List String
  fs : List Feature
  den : Option String
deriving DecidableEq, Repr

/-- Identifier of a feature instance: (leaf index in the derivation,
position inside that leaf's feature sequence). -/
abbrev FId := Nat × Nat

/-- A chain: a phonological string paired with the still-unchecked tail of
a feature sequence, each feature carrying its instance identifier. -/
structure IChain where
  phon : List String
  fs : List (FId × Feature)
deriving DecidableEq, Repr

/-- Modelled from the spec: an expression of the derivation calculus - a
head chain, the moving chains still awaiting a licensor, and a flag
recording whether the head is an unmerged lexical head (which determines
complement vs. specifier linearization). -/
structure IExpr where
  head : IChain
  movers : List IChain
  lexical : Bool
deriving DecidableEq, Repr

/-- The kind of structure-building operation that consumed a feature
pair. -/
inductive OpKind where
  | mergeOp
  | hmergeOp
  | moveOp
deriving DecidableEq, Repr

/-- Record of one feature-pair consumption: operation kind, the
selector/licensor instance, and the selectee/licensee instance. -/
structure Consume where
  op : OpKind
  posId : FId
  negId : FId
deriving DecidableEq, Repr

/-- Modelled from the spec: a resolved derivation tree - each leaf a
lexical-item instance, each internal node a merge, head-move (hmerge) or
move operation.  This is the canonical projection of a satisfying model
onto the derivation-determining decision variables. -/
inductive DTree where
  | leaf (li : LexicalItem)
  | merge (t1 t2 : DTree)
  | hmerge (t1 t2 : DTree)
  | move (t : DTree)
deriving DecidableEq, Repr

/-- Tag a feature sequence with instance identifiers, for leaf `leafIdx`,
starting at position `pos`. -/
def tagFeats (leafIdx : Nat) (pos : Nat) : List Feature → List (FId × Feature)
  | [] => []
  | f :: fs => ((leafIdx, pos), f) :: tagFeats leafIdx (pos + 1) fs

/-- Linearization of merge: a lexical selector takes its complement to
the right, a derived selector takes its specifier to the left. -/
def mergedPhon (a b : IExpr) : List String :=
  if a.lexical then a.head.phon ++ b.head.phon else b.head.phon ++ a.head.phon

/-- Modelled from the spec: the merge operation is missing from `src/`.
Merge consumes a selector/selectee feature pair; when the selected
expression has remaining features it is stored as a moving chain. -/
def mergeI (a b : IExpr) : Option (IExpr × Consume) :=
  match a.head.fs, b.head.fs with
  | (i1, Feature.sel n) :: fs1, (i2, Feature.cat m) :: fs2 =>
    if n = m then
      if fs2.isEmpty then
        some (⟨⟨mergedPhon a b, fs1⟩, a.movers ++ b.movers, false⟩,
              ⟨OpKind.mergeOp, i1, i2⟩)
      else
        some (⟨⟨a.head.phon, fs1⟩, ⟨b.head.phon, fs2⟩ :: (a.movers ++ b.movers), false⟩,
              ⟨OpKind.mergeOp, i1, i2⟩)
    else none
  | _, _ => none

/-- Modelled from the spec: the head-move operation is missing from
`src/`.  Head movement is a restricted merge consuming a head-selector
and a category feature, with the selected lexical head adjoining to the
selecting head. -/
def hmergeI (a b : IExpr) : Option (IExpr × Consume) :=
  match a.head.fs, b.head.fs with
  | (i1, Feature.selh n) :: fs1, (i2, Feature.cat m) :: fs2 =>
    if n = m ∧ a.lexical = true ∧ b.lexical = true ∧ fs2.isEmpty = true then
      some (⟨⟨b.head.phon ++ a.head.phon, fs1⟩, a.movers ++ b.movers, false⟩,
            ⟨OpKind.hmergeOp, i1, i2⟩)
    else none
  | _, _ => none

/-- Does this moving chain currently await licensee `n`? -/
def firstIsLce (n : String) (c : IChain) : Bool :=
  match c.fs with
  | (_, Feature.lce m) :: _ => m == n
  | _ => false

/-- Locality/shortest-move: the licensor may attract only when exactly
one moving chain awaits the matching licensee; the unique matching chain
is extracted from the mover list. -/
def extractUnique (n : String) : List IChain → Option (IChain × List IChain)
  | [] => none
  | c :: cs =>
    if firstIsLce n c then
      if cs.any (firstIsLce n) then none else some (c, cs)
    else
      match extractUnique n cs with
      | some (m, rest) => some (m, c :: rest)
      | none => none

/-- Modelled from the spec: the move operation is missing from `src/`.
Move consumes a licensor/licensee feature pair; a chain whose features
are exhausted lands in specifier position, otherwise it keeps moving. -/
def moveI (e : IExpr) : Option (IExpr × Consume) :=
  match e.head.fs with
  | (i1, Feature.lic n) :: fs1 =>
    match extractUnique n e.movers with
    | some (c, rest) =>
      match c.fs with
      | (i2, Feature.lce _) :: cfs =>
        if cfs.isEmpty then
          some (⟨⟨c.phon ++ e.head.phon, fs1⟩, rest, false⟩, ⟨OpKind.moveOp, i1, i2⟩)
        else
          some (⟨⟨e.head.phon, fs1⟩, ⟨c.phon, cfs⟩ :: rest, false⟩, ⟨OpKind.moveOp, i1, i2⟩)
      | _ => none
    | none => none
  | _ => none

/-- Modelled from the spec: the derivation evaluator (the resolution of a
derivation-tree candidate into an expression) is missing from `src/`.
`evalI t n` threads a fresh-leaf-index counter and returns the resulting
expression together with the full trace of feature-pair consumptions. -/
def evalI : DTree → Nat → Option (IExpr × List Consume × Nat)
  | DTree.leaf li, n => some (⟨⟨li.phon, tagFeats n 0 li.fs⟩, [], true⟩, [], n + 1)
  | DTree.merge t1 t2, n =>
    match evalI t1 n with
    | none => none
    | some (e1, cs1, n1) =>
      match evalI t2 n1 with
      | none => none
      | some (e2, cs2, n2) =>
        match mergeI e1 e2 with
        | none => none
        | some (e, c) => some (e, cs1 ++ cs2 ++ [c], n2)
  | DTree.hmerge t1 t2, n =>
    match evalI t1 n with
    | none => none
    | some (e1, cs1, n1) =>
      match evalI t2 n1 with
      | none => none
      | some (e2, cs2, n2) =>
        match hmergeI e1 e2 with
        | none => none
        | some (e, c) => some (e, cs1 ++ cs2 ++ [c], n2)
  | DTree.move t, n =>
    match evalI t n with
    | none => none
    | some (e1, cs1, n1) =>
      match moveI e1 with
      | none => none
      | some (e, c) => some (e, cs1 ++ [c], n1)

/-- The lexical items at the leaves of a derivation tree, left to
right. -/
def leavesList : DTree → List LexicalItem
  | DTree.leaf li => [li]
  | DTree.merge t1 t2 => leavesList t1 ++ leavesList t2
  | DTree.hmerge t1 t2 => leavesList t1 ++ leavesList t2
  | DTree.move t => leavesList t

/-- Number of leaves of a derivation tree. -/
def leafCount : DTree → Nat
  | DTree.leaf _ => 1
  | DTree.merge t1 t2 => leafCount t1 + leafCount t2
  | DTree.hmerge t1 t2 => leafCount t1 + leafCount t2
  | DTree.move t => leafCount t

/-- Number of (phrasal) move operations in a derivation tree. -/
def moveCount : DTree → Nat
  | DTree.leaf _ => 0
  | DTree.merge t1 t2 => moveCount t1 + moveCount t2
  | DTree.hmerge t1 t2 => moveCount t1 + moveCount t2
  | DTree.move t => moveCount t + 1

/-- Number of head-move operations in a derivation tree. -/
def hmoveCount : DTree → Nat
  | DTree.leaf _ => 0
  | DTree.merge t1 t2 => hmoveCount t1 + hmoveCount t2
  | DTree.hmerge t1 t2 => hmoveCount t1 + hmoveCount t2 + 1
  | DTree.move t => hmoveCount t

/-- Number of covert (phonologically empty) lexical-item instances used
by a derivation tree. -/
def emptyCount : DTree → Nat
  | DTree.leaf li => if li.phon.isEmpty then 1 else 0
  | DTree.merge t1 t2 => emptyCount t1 + emptyCount t2
  | DTree.hmerge t1 t2 => emptyCount t1 + emptyCount t2
  | DTree.move t => emptyCount t

/-- All feature-instance identifiers of a derivation tree, with leaves
numbered from `n` in evaluation order. -/
def idsFrom : DTree → Nat → List FId
  | DTree.leaf li, n => (tagFeats n 0 li.fs).map Prod.fst
  | DTree.merge t1 t2, n => idsFrom t1 n ++ idsFrom t2 (n + leafCount t1)
  | DTree.hmerge t1 t2, n => idsFrom t1 n ++ idsFrom t2 (n + leafCount t1)
  | DTree.move t, n => idsFrom t n

/-- Instance identifiers of the unchecked features of a chain. -/
def chainIds (c : IChain) : List FId := c.fs.map Prod.fst

/-- Instance identifiers of the unchecked features of a mover list. -/
def moversIds (ms : List IChain) : List FId := ms.flatMap chainIds

/-- Instance identifiers of all unchecked features of an expression. -/
def exprIds (e : IExpr) : List FId := chainIds e.head ++ moversIds e.movers

/-- Instance identifiers consumed by a trace of operations; each
consumption contributes its selector/licensor and selectee/licensee
instance. -/
def consumeIds (cs : List Consume) : List FId := cs.flatMap (fun c => [c.posId, c.negId])

/-- Modelled from the spec: the logical-form representation is missing
from `src/`.  A semantic target is a composition tree over leaf
denotations. -/
inductive LFTerm where
  | atom (s : String)
  | unit
  | app (f a : LFTerm)
deriving DecidableEq, Repr

/-- Modelled from the spec: bottom-up semantic composition along the
merge/move tree; movement does not alter composition, merge and head-move
compose by application, a leaf contributes its denotation (or the unit
for a denotation-free item). -/
def lfOf : DTree → LFTerm
  | DTree.leaf li =>
    match li.den with
    | some s => LFTerm.atom s
    | none => LFTerm.unit
  | DTree.merge t1 t2 => LFTerm.app (lfOf t1) (lfOf t2)
  | DTree.hmerge t1 t2 => LFTerm.app (lfOf t1) (lfOf t2)
  | DTree.move t => lfOf t

/-- Does a feature list consist of a single category feature? -/
def isCatSingleton : List (FId × Feature) → Bool
  | [(_, Feature.cat _)] => true
  | _ => false

/-- Completeness of a derivation's root: no moving chain remains and the
head's only unchecked feature is its final category feature (in
particular no selector or licensor feature is left unchecked). -/
def completeB (e : IExpr) : Bool :=
  e.movers.isEmpty && isCatSingleton e.head.fs

/-- Is this feature a selector, head-selector or licensor? -/
def isPos : Feature → Bool
  | Feature.sel _ => true
  | Feature.selh _ => true
  | Feature.lic _ => true
  | _ => false

/-- Is this feature a licensee? -/
def isLce : Feature → Bool
  | Feature.lce _ => true
  | _ => false

/-- Number of licensee features in a plain feature list. -/
def featsLce (fs : List Feature) : Nat := (fs.filter isLce).length

/-- Number of licensee features among a tagged feature list. -/
def fsLce (fs : List (FId × Feature)) : Nat := (fs.filter (fun p => isLce p.2)).length

/-- Number of licensee features still unchecked on the movers. -/
def moversLce (ms : List IChain) : Nat := (ms.map (fun c => fsLce c.fs)).sum

/-- Number of licensee features still unchecked in an expression. -/
def exprLce (e : IExpr) : Nat := fsLce e.head.fs + moversLce e.movers

/-- Total number of licensee features carried by the lexical items at the
leaves of a derivation tree. -/
def treeLce (t : DTree) : Nat := ((leavesList t).map (fun li => featsLce li.fs)).sum

/-- The token `w` occurs somewhere in the expression: in the derived
string of the head or in a moving chain. -/
def exprHasTok (e : IExpr) (w : String) : Prop :=
  w ∈ e.head.phon ∨ ∃ ch ∈ e.movers, w ∈ ch.phon

/-- Modelled from the spec: the `InterfaceCondition` record is missing
from `src/` - a pair of an optional PF target (ordered token sequence)
and an optional LF target. -/
structure InterfaceCondition where
  pf : Option (List String)
  lf : Option LFTerm
deriving DecidableEq, Repr

/-- Modelled from the spec: the invocation surface of the parse operation
(the inputs of `run_parser` that reach the engine).  Field names follow
the notebook's keyword arguments. -/
structure Config where
  lexicon : List LexicalItem
  ic : InterfaceCondition
  extra_lexical_items : List LexicalItem
  include_PF_constraints : Bool
  include_LF_constraints : Bool
  extract_all_parses : Bool
  max_num_empty_lexical_items : Nat
  max_num_movements : Nat
  max_num_head_movements : Nat
deriving DecidableEq, Repr

/-- The inventory of lexical items a derivation may draw instances
from. -/
def allItems (cfg : Config) : List LexicalItem :=
  cfg.lexicon ++ cfg.extra_lexical_items

/-- Modelled from the spec: the PF constraint family - when the PF toggle
is enabled, the movement-reordered sequence of overt tokens of the
resolved tree must equal the PF target position for position. -/
def pfOK (cfg : Config) (e : IExpr) : Bool :=
  !cfg.include_PF_constraints || (cfg.ic.pf == some e.head.phon)

/-- Modelled from the spec: the LF constraint family - when the LF toggle
is enabled, the bottom-up composition of the tree must equal the LF
target. -/
def lfOK (cfg : Config) (d : DTree) : Bool :=
  !cfg.include_LF_constraints || (cfg.ic.lf == some (lfOf d))

/-- Modelled from the spec: the bound parameters cap the number of covert
item instances, movements and head movements a derivation may use. -/
def boundsOK (cfg : Config) (d : DTree) : Bool :=
  decide (emptyCount d ≤ cfg.max_num_empty_lexical_items) &&
  decide (moveCount d ≤ cfg.max_num_movements) &&
  decide (hmoveCount d ≤ cfg.max_num_head_movements)

/-- Every leaf of the derivation is an instance of an item of the lexicon
or of the extra ad-hoc items. -/
def lexiconOK (cfg : Config) (d : DTree) : Bool :=
  (leavesList d).all (fun li => (allItems cfg).contains li)

/-- Modelled from the spec: the conjunction of the assembled constraint
families - a derivation-tree candidate is a satisfying resolution of the
bounded schema exactly when it evaluates successfully, is complete, fits
the bounds, draws its leaves from the lexicon, and meets the enabled
interface conditions.  This is the predicate whose satisfying assignments
the solver driver searches for. -/
def isExtractedB (cfg : Config) (d : DTree) : Bool :=
  match evalI d 0 with
  | none => false
  | some (e, _, _) =>
    completeB e && boundsOK cfg d && lexiconOK cfg d && pfOK cfg e && lfOK cfg d

/-- The movement-reordered sequence of phonologically overt tokens of a
derivation tree (the derived string of its head chain). -/
def overtYield (d : DTree) : List String :=
  match evalI d 0 with
  | some (e, _, _) => e.head.phon
  | none => []

/-- The consumption trace of a derivation tree. -/
def consumedOf (d : DTree) : List Consume :=
  match evalI d 0 with
  | some (_, cs, _) => cs
  | none => []

/-- All feature-instance identifiers of the lexical items used by a
derivation tree. -/
def allIds (d : DTree) : List FId := idsFrom d 0

/-- The feature-instance identifiers consumed by the operations of a
derivation tree, one entry per consumption. -/
def consumedIdsOf (d : DTree) : List FId := consumeIds (consumedOf d)

/-- The unchecked tagged features at the root of a resolved derivation
tree. -/
def rootFs (d : DTree) : List (FId × Feature) :=
  match evalI d 0 with
  | some (e, _, _) => e.head.fs
  | none => []

/-- Does the root of the resolved derivation carry no unchecked selector
or licensor feature (on the head or on any residual mover)? -/
def rootNoUncheckedB (d : DTree) : Bool :=
  match evalI d 0 with
  | some (e, _, _) =>
    (e.head.fs.all (fun p => !isPos p.2)) &&
    (e.movers.all (fun c => c.fs.all (fun p => !isPos p.2)))
  | none => false

/-- Modelled from the spec: the `Derivation` output record - the resolved
tree together with the trace of which feature pairs licensed each
operation. -/
structure Derivation where
  tree : DTree
  featureTrace : List Consume
deriving DecidableEq, Repr

/-- Materialize the Derivation record for a satisfying tree. -/
def mkDerivation (d : DTree) : Derivation := ⟨d, consumedOf d⟩

/-- Modelled from the spec: a satisfying assignment returned by the
backend - its canonical projection onto the derivation-determining
variables (`core`) plus incidental encoding auxiliaries (`aux`). -/
structure SolverModel where
  core : DTree
  aux : Nat
deriving DecidableEq, Repr

/-- Verdict of one backend call. -/
inductive SolverVerdict where
  | sat (m : SolverModel)
  | unsat
  | timeout
deriving DecidableEq, Repr

/-- Modelled from the spec: the satisfiability backend, abstracted as an
oracle answering one solve call given the current set of blocking clauses
(each clause excluding one canonical projection). -/
abbrev SolverOracle := List DTree → SolverVerdict

/-- Modelled from the spec: the error taxonomy of the engine. -/
inductive ParseError where
  | lexiconError
  | boundExceededError
  | configurationError
  | solverError
  | inconsistentModelError
deriving DecidableEq, Repr

/-- Modelled from the spec: the outcome of a parse invocation - one or
many derivations, the ordinary negative result UNSAT, the distinct
TIMEOUT outcome, or a typed failure. -/
inductive ParseOutcome where
  | sat (ds : List Derivation)
  | unsat
  | timeout
  | failure (e : ParseError)
deriving DecidableEq, Repr

/-- Modelled from the spec: single-solution solve - submit the formula
once and classify the verdict, checking a claimed model against the
schema constraints before extraction. -/
def solveOnePath (cfg : Config) (oracle : SolverOracle) : ParseOutcome :=
  match oracle [] with
  | SolverVerdict.unsat => ParseOutcome.unsat
  | SolverVerdict.timeout => ParseOutcome.timeout
  | SolverVerdict.sat m =>
    if isExtractedB cfg m.core then ParseOutcome.sat [mkDerivation m.core]
    else ParseOutcome.failure ParseError.solverError

/-- Modelled from the spec: all-solutions enumeration by blocking-clause
iteration - solve, check and extract the model, block its canonical
projection, re-solve; stop on UNSAT, timeout or fuel exhaustion. -/
def solveAllLoop (cfg : Config) (oracle : SolverOracle) :
    Nat → List DTree → List Derivation → ParseOutcome
  | 0, _, acc => if acc.isEmpty then ParseOutcome.timeout else ParseOutcome.sat acc
  | fuel + 1, blocked, acc =>
    match oracle blocked with
    | SolverVerdict.unsat =>
      if acc.isEmpty then ParseOutcome.unsat else ParseOutcome.sat acc
    | SolverVerdict.timeout =>
      if acc.isEmpty then ParseOutcome.timeout else ParseOutcome.sat acc
    | SolverVerdict.sat m =>
      if isExtractedB cfg m.core && !(blocked.contains m.core) then
        solveAllLoop cfg oracle fuel (m.core :: blocked) (acc ++ [mkDerivation m.core])
      else ParseOutcome.failure ParseError.solverError

/-- The number of overt lexical items the PF target requires the schema
to host. -/
def requiredOvert (cfg : Config) : Nat :=
  match cfg.ic.pf with
  | some t => t.length
  | none => 0

/-- Modelled from the spec: the parse operation.  The spec does not fix
the formula for the schema's overt capacity, so the capacity is a
parameter of the model (`capacity` applied to the three bound
parameters); `fuel` bounds the enumeration loop.  Validation (the toggle
check, then the bound check) happens before any backend consultation. -/
def parseOp (oracle : SolverOracle) (capacity : Nat → Nat → Nat → Nat)
    (fuel : Nat) (cfg : Config) : ParseOutcome :=
  if cfg.include_PF_constraints = false ∧ cfg.include_LF_constraints = false then
    ParseOutcome.failure ParseError.configurationError
  else if capacity cfg.max_num_empty_lexical_items cfg.max_num_movements
      cfg.max_num_head_movements < requiredOvert cfg then
    ParseOutcome.failure ParseError.boundExceededError
  else if cfg.extract_all_parses then solveAllLoop cfg oracle fuel [] []
  else solveOnePath cfg oracle

/-- The configuration with its three bound parameters replaced. -/
def withBounds (cfg : Config) (b1 b2 b3 : Nat) : Config :=
  { cfg with
    max_num_empty_lexical_items := b1
    max_num_movements := b2
    max_num_head_movements := b3 }

/-- Satisfiability of the parse problem at the given bound triple: some
derivation-tree candidate satisfies the assembled schema constraints. -/
def SATwithin (cfg : Config) (b1 b2 b3 : Nat) : Prop :=
  ∃ d : DTree, isExtractedB (withBounds cfg b1 b2 b3) d = true

/-- Modelled from the spec: lexical item for "John" of the relative
clause example (the file `experiment-data/lexicon-G.json` is not under
`src/`). -/
def johnLI : LexicalItem := ⟨["John"], [Feature.cat "d"], some "John"⟩

/-- Modelled from the spec: lexical item for "fears" - a transitive verb
selecting an object and a subject. -/
def fearsLI : LexicalItem :=
  ⟨["fears"], [Feature.sel "d", Feature.sel "d", Feature.cat "v"], some "fears"⟩

/-- Modelled from the spec: lexical item for "everyone", here the
determiner-like head selecting the relative clause. -/
def everyoneLI : LexicalItem :=
  ⟨["everyone"], [Feature.sel "c", Feature.cat "d"], some "everyone"⟩

/-- Modelled from the spec: lexical item for "who" - a nominal carrying
the wh licensee that drives relativization movement. -/
def whoLI : LexicalItem :=
  ⟨["who"], [Feature.cat "d", Feature.lce "wh"], some "who"⟩

/-- Modelled from the spec: lexical item for "knows" - the embedded
transitive verb. -/
def knowsLI : LexicalItem :=
  ⟨["knows"], [Feature.sel "d", Feature.sel "d", Feature.cat "v"], some "knows"⟩

/-- Modelled from the spec: lexical item for "her". -/
def herLI : LexicalItem := ⟨["her"], [Feature.cat "d"], some "her"⟩

/-- Modelled from the spec: the covert relativizer - an empty item
selecting the embedded verbal projection and licensing wh movement. -/
def crelLI : LexicalItem :=
  ⟨[], [Feature.sel "v", Feature.lic "wh", Feature.cat "c"], none⟩

/-- Modelled from the spec: the covert declarative complementizer closing
the matrix clause at the start category. -/
def cdeclLI : LexicalItem := ⟨[], [Feature.sel "v", Feature.cat "C"], none⟩

/-- Modelled from the spec: the relative-clause lexicon of the end-to-end
scenario (overt items plus the covert heads). -/
def lexG : List LexicalItem :=
  [johnLI, fearsLI, everyoneLI, whoLI, knowsLI, herLI, crelLI, cdeclLI]

/-- The PF target of the end-to-end scenario. -/
def pfTargetG : List String := ["John", "fears", "everyone", "who", "knows", "her"]

/-- A derivation tree for "John fears everyone who knows her": the
embedded clause is built with "who" as its subject, "who" moves to the
specifier of the covert relativizer, "everyone" selects the relative
clause, and the matrix clause closes under the covert declarative
complementizer. -/
def dG : DTree :=
  DTree.merge (DTree.leaf cdeclLI)
    (DTree.merge
      (DTree.merge (DTree.leaf fearsLI)
        (DTree.merge (DTree.leaf everyoneLI)
          (DTree.move
            (DTree.merge (DTree.leaf crelLI)
              (DTree.merge
                (DTree.merge (DTree.leaf knowsLI) (DTree.leaf herLI))
                (DTree.leaf whoLI))))))
      (DTree.leaf johnLI))

/-- The LF target of the end-to-end scenario: the composition of the
intended derivation. -/
def lfTargetG : LFTerm := lfOf dG

/-- The end-to-end scenario configuration: relative-clause lexicon, both
interface constraints enabled, bounds {6, 6, 4}. -/
def cfgG : Config :=
  { lexicon := lexG
    ic := ⟨some pfTargetG, some lfTargetG⟩
    extra_lexical_items := []
    include_PF_constraints := true
    include_LF_constraints := true
    extract_all_parses := false
    max_num_empty_lexical_items := 6
    max_num_movements := 6
    max_num_head_movements := 4 }

/-- The negative scenario configuration: same lexicon and targets, but
`max_num_movements = 0`. -/
def cfgG0 : Config := { cfgG with max_num_movements := 0 }

/-- A backend oracle that proposes the intended model for the end-to-end
scenario. -/
def oracleG : SolverOracle := fun _ => SolverVerdict.sat ⟨dG, 0⟩

/-- A generous schema-capacity function for the worked scenarios. -/
def capacityG : Nat → Nat → Nat → Nat := fun b1 b2 b3 => b1 + b2 + b3 + 10

/-- A degenerate schema-capacity function that can host no overt item,
for the bound-exceeded scenario. -/
def capacityZero : Nat → Nat → Nat → Nat := fun _ _ _ => 0

/-- A one-word lexical item of category at the start symbol, for the
minimal scenarios. -/
def helloLI : LexicalItem := ⟨["hello"], [Feature.cat "C"], some "greeting"⟩

/-- The single-leaf derivation over `helloLI`. -/
def dSingle : DTree := DTree.leaf helloLI

/-- A minimal PF-only configuration whose target is the one-word
sentence. -/
def cfgSingle : Config :=
  { lexicon := [helloLI]
    ic := ⟨some ["hello"], none⟩
    extra_lexical_items := []
    include_PF_constraints := true
    include_LF_constraints := false
    extract_all_parses := false
    max_num_empty_lexical_items := 0
    max_num_movements := 0
    max_num_head_movements := 0 }

/-- First of two homophonous items making the ambiguous one-word
grammar. -/
def ambALI : LexicalItem := ⟨["hi"], [Feature.cat "C"], some "reading1"⟩

/-- Second of two homophonous items making the ambiguous one-word
grammar. -/
def ambBLI : LexicalItem := ⟨["hi"], [Feature.cat "C"], some "reading2"⟩

/-- First parse of the ambiguous grammar. -/
def dAmbA : DTree := DTree.leaf ambALI

/-- Second parse of the ambiguous grammar. -/
def dAmbB : DTree := DTree.leaf ambBLI

/-- A PF-only configuration with two distinct parses, in
all-parses-enumeration mode. -/
def cfgAmb : Config :=
  { lexicon := [ambALI, ambBLI]
    ic := ⟨some ["hi"], none⟩
    extra_lexical_items := []
    include_PF_constraints := true
    include_LF_constraints := false
    extract_all_parses := true
    max_num_empty_lexical_items := 0
    max_num_movements := 0
    max_num_head_movements := 0 }

/-- An enumeration oracle for the ambiguous grammar: it proposes the
first parse, then (once the first is blocked) the second with different
incidental auxiliaries, then reports UNSAT. -/
def oracleAmb : SolverOracle := fun blocked =>
  if blocked.isEmpty then SolverVerdict.sat ⟨dAmbA, 0⟩
  else if blocked == [dAmbA] then SolverVerdict.sat ⟨dAmbB, 7⟩
  else SolverVerdict.unsat

/-- A configuration with both interface-condition toggles disabled. -/
def cfgOff : Config := { cfgSingle with include_PF_constraints := false }

/-- The LF-only variant of the minimal configuration. -/
def cfgLFonly : Config :=
  { cfgSingle with
    include_PF_constraints := false
    include_LF_constraints := true
    ic := ⟨none, some (LFTerm.atom "greeting")⟩ }

/-- An oracle that always reports UNSAT. -/
def oracleUnsat : SolverOracle := fun _ => SolverVerdict.unsat

/-- An oracle that proposes the minimal model `dSingle`. -/
def oracleSingle : SolverOracle := fun _ => SolverVerdict.sat ⟨dSingle, 3⟩

/-- Python-style boolean: is `needle` an initial segment of
`haystack`? -/
def leadsWith : List Char → List Char → Bool
  | [], _ => true
  | _ :: _, [] => false
  | a :: as, b :: bs => a == b && leadsWith as bs

/-- Occurrence of `needle` as a contiguous segment somewhere in the
list. -/
def occursIn (needle : List Char) : List Char → Bool
  | [] => leadsWith needle []
  | c :: cs => leadsWith needle (c :: cs) || occursIn needle cs

/-- Python's `needle in haystack` for strings: contiguous substring
membership (the empty string is a substring of every string). -/
def pyInStr (needle haystack : String) : Bool :=
  occursIn needle.toList haystack.toList

/-- Python exception type raised by a failed `assert`. -/
inductive PyError where
  | assertionError
deriving DecidableEq, Repr

/-- Observable effects of one `process_example` call: which files were
opened for reading, whether the parser was invoked, and the exception
raised, if any. -/
structure ProcResult where
  filesRead : List String
  parserInvoked : Bool
  outcome : Option PyError
deriving DecidableEq, Repr

/-- Embedding of `process_example` from
`src/mgsmt-parsing-examples-CoNLL-2022.ipynb`: the two leading `assert`
statements (`0 <= example_idx < 8` and `example_code in 'ABCDEFGH'`,
the latter being Python substring membership), then the lexicon file
read, the corpus file read, and the `run_parser` call; file contents and
the parser run itself are abstracted into the effect trace. -/
def process_example (example_idx : Int) (example_code : String) : ProcResult :=
  if ¬(0 ≤ example_idx ∧ example_idx < 8) then ⟨[], false, some PyError.assertionError⟩
  else if pyInStr example_code "ABCDEFGH" = false then
    ⟨[], false, some PyError.assertionError⟩
  else
    ⟨["experiment-data/lexicon-" ++ example_code ++ ".json",
      "experiment-data/corpus-of-interface-conditions.json"], true, none⟩

theorem moversIds_append (l1 l2 : List IChain) :
    moversIds (l1 ++ l2) = moversIds l1 ++ moversIds l2 := by
  simp [moversIds]

theorem moversIds_cons (c : IChain) (l : List IChain) :
    moversIds (c :: l) = chainIds c ++ moversIds l := by
  simp [moversIds]

theorem consumeIds_append (l1 l2 : List Consume) :
    consumeIds (l1 ++ l2) = consumeIds l1 ++ consumeIds l2 := by
  simp [consumeIds]

theorem tagFeats_map_fst_mem (j p : Nat) (fs : List Feature) :
    ∀ i ∈ (tagFeats j p fs).map Prod.fst, i.1 = j ∧ p ≤ i.2 := by
  induction fs generalizing p with
  | nil => intro i hi; simp [tagFeats] at hi
  | cons f fs ih =>
    intro i hi
    simp only [tagFeats, List.map_cons, List.mem_cons] at hi
    rcases hi with rfl | hi
    · exact ⟨rfl, Nat.le_refl p⟩
    · obtain ⟨h1, h2⟩ := ih (p + 1) i hi
      exact ⟨h1, Nat.le_trans (Nat.le_succ p) h2⟩

theorem tagFeats_count_le_one (j p : Nat) (fs : List Feature) (i : FId) :
    ((tagFeats j p fs).map Prod.fst).count i ≤ 1 := by
  induction fs generalizing p with
  | nil => simp [tagFeats]
  | cons f fs ih =>
    simp only [tagFeats, List.map_cons, List.count_cons]
    by_cases hip : i = (j, p)
    · have hz : ((tagFeats j (p + 1) fs).map Prod.fst).count i = 0 := by
        rw [List.count_eq_zero]
        intro hmem
        obtain ⟨h1, h2⟩ := tagFeats_map_fst_mem j (p + 1) fs i hmem
        rw [hip] at h2
        omega
      subst hip
      simp [hz]
    · have hip2 : ¬((j, p) = i) := fun h => hip h.symm
      simp only [beq_iff_eq, hip2, if_false, Nat.add_zero]
      exact ih (p + 1)

theorem idsFrom_mem_range (t : DTree) :
    ∀ n, ∀ i ∈ idsFrom t n, n ≤ i.1 ∧ i.1 < n + leafCount t := by
  induction t with
  | leaf li =>
    intro n i hi
    simp only [idsFrom] at hi
    obtain ⟨h1, _⟩ := tagFeats_map_fst_mem n 0 li.fs i hi
    simp only [leafCount]
    omega
  | merge t1 t2 ih1 ih2 =>
    intro n i hi
    simp only [idsFrom, List.mem_append] at hi
    simp only [leafCount]
    rcases hi with hi | hi
    · have := ih1 n i hi; omega
    · have := ih2 (n + leafCount t1) i hi; omega
  | hmerge t1 t2 ih1 ih2 =>
    intro n i hi
    simp only [idsFrom, List.mem_append] at hi
    simp only [leafCount]
    rcases hi with hi | hi
    · have := ih1 n i hi; omega
    · have := ih2 (n + leafCount t1) i hi; omega
  | move t ih =>
    intro n i hi
    simp only [idsFrom] at hi
    simpa only [leafCount] using ih n i hi

theorem idsFrom_count_le_one (t : DTree) :
    ∀ n (i : FId), (idsFrom t n).count i ≤ 1 := by
  induction t with
  | leaf li =>
    intro n i
    simpa only [idsFrom] using tagFeats_count_le_one n 0 li.fs i
  | merge t1 t2 ih1 ih2 =>
    intro n i
    simp only [idsFrom, List.count_append]
    by_cases h1 : i ∈ idsFrom t1 n
    · have hz : (idsFrom t2 (n + leafCount t1)).count i = 0 := by
        rw [List.count_eq_zero]
        intro h2
        have r1 := idsFrom_mem_range t1 n i h1
        have r2 := idsFrom_mem_range t2 (n + leafCount t1) i h2
        omega
      have := ih1 n i
      omega
    · have hz : (idsFrom t1 n).count i = 0 := List.count_eq_zero.mpr h1
      have := ih2 (n + leafCount t1) i
      omega
  | hmerge t1 t2 ih1 ih2 =>
    intro n i
    simp only [idsFrom, List.count_append]
    by_cases h1 : i ∈ idsFrom t1 n
    · have hz : (idsFrom t2 (n + leafCount t1)).count i = 0 := by
        rw [List.count_eq_zero]
        intro h2
        have r1 := idsFrom_mem_range t1 n i h1
        have r2 := idsFrom_mem_range t2 (n + leafCount t1) i h2
        omega
      have := ih1 n i
      omega
    · have hz : (idsFrom t1 n).count i = 0 := List.count_eq_zero.mpr h1
      have := ih2 (n + leafCount t1) i
      omega
  | move t ih =>
    intro n i
    simpa only [idsFrom] using ih n i

theorem mergeI_count {a b e : IExpr} {c : Consume} (h : mergeI a b = some (e, c))
    (i : FId) :
    ([c.posId, c.negId] : List FId).count i + (exprIds e).count i
      = (exprIds a).count i + (exprIds b).count i := by
  obtain ⟨⟨pa, fsa⟩, ma, la⟩ := a
  obtain ⟨⟨pb, fsb⟩, mb, lb⟩ := b
  simp only [mergeI] at h
  split at h
  case h_2 => exact absurd h (by simp)
  case h_1 i1 n fs1 i2 m fs2 =>
    split at h
    case isFalse => exact absurd h (by simp)
    case isTrue hnm =>
      split at h
      all_goals
        simp only [Option.some.injEq, Prod.mk.injEq] at h
        obtain ⟨rfl, rfl⟩ := h
      case isTrue hemp =>
        rw [List.isEmpty_iff] at hemp
        subst hemp
        simp only [exprIds, chainIds, moversIds_append, List.map_cons, List.map_nil,
          List.count_append, List.count_cons, List.count_nil, List.nil_append]
        omega
      case isFalse hemp =>
        simp only [exprIds, chainIds, moversIds_append, moversIds_cons, List.map_cons,
          List.count_append, List.count_cons, List.count_nil, List.nil_append]
        omega

theorem hmergeI_count {a b e : IExpr} {c : Consume} (h : hmergeI a b = some (e, c))
    (i : FId) :
    ([c.posId, c.negId] : List FId).count i + (exprIds e).count i
      = (exprIds a).count i + (exprIds b).count i := by
  obtain ⟨⟨pa, fsa⟩, ma, la⟩ := a
  obtain ⟨⟨pb, fsb⟩, mb, lb⟩ := b
  simp only [hmergeI] at h
  split at h
  case h_2 => exact absurd h (by simp)
  case h_1 i1 n fs1 i2 m fs2 =>
    split at h
    case isFalse => exact absurd h (by simp)
    case isTrue hcond =>
      obtain ⟨hnm, hla, hlb, hemp⟩ := hcond
      rw [List.isEmpty_iff] at hemp
      subst hemp
      simp only [Option.some.injEq, Prod.mk.injEq] at h
      obtain ⟨rfl, rfl⟩ := h
      simp only [exprIds, chainIds, moversIds_append, List.map_cons, List.map_nil,
        List.count_append, List.count_cons, List.count_nil, List.nil_append]
      omega

theorem extractUnique_count {n : String} {l : List IChain} {c : IChain}
    {rest : List IChain} (h : extractUnique n l = some (c, rest)) (i : FId) :
    (chainIds c).count i + (moversIds rest).count i = (moversIds l).count i := by
  induction l generalizing rest with
  | nil => simp [extractUnique] at h
  | cons c0 cs ih =>
    simp only [extractUnique] at h
    split at h
    case isTrue hfirst =>
      split at h
      case isTrue => exact absurd h (by simp)
      case isFalse =>
        simp only [Option.some.injEq, Prod.mk.injEq] at h
        obtain ⟨rfl, rfl⟩ := h
        simp [moversIds_cons, List.count_append]
    case isFalse hfirst =>
      cases hrec : extractUnique n cs with
      | none => rw [hrec] at h; exact absurd h (by simp)
      | some r =>
        obtain ⟨m, rest0⟩ := r
        rw [hrec] at h
        simp only [Option.some.injEq, Prod.mk.injEq] at h
        obtain ⟨rfl, rfl⟩ := h
        have := ih hrec
        simp only [moversIds_cons, List.count_append] at this ⊢
        omega

theorem extractUnique_mem {n : String} {l : List IChain} {c : IChain}
    {rest : List IChain} (h : extractUnique n l = some (c, rest)) :
    c ∈ l ∧ ∀ x ∈ rest, x ∈ l := by
  induction l generalizing rest with
  | nil => simp [extractUnique] at h
  | cons c0 cs ih =>
    simp only [extractUnique] at h
    split at h
    case isTrue hfirst =>
      split at h
      case isTrue => exact absurd h (by simp)
      case isFalse =>
        simp only [Option.some.injEq, Prod.mk.injEq] at h
        obtain ⟨rfl, rfl⟩ := h
        exact ⟨List.mem_cons_self _ _, fun x hx => List.mem_cons_of_mem c0 hx⟩
    case isFalse hfirst =>
      cases hrec : extractUnique n cs with
      | none => rw [hrec] at h; exact absurd h (by simp)
      | some r =>
        obtain ⟨m, rest0⟩ := r
        rw [hrec] at h
        simp only [Option.some.injEq, Prod.mk.injEq] at h
        obtain ⟨rfl, rfl⟩ := h
        obtain ⟨hm, hrest⟩ := ih hrec
        refine ⟨List.mem_cons_of_mem c0 hm, fun x hx => ?_⟩
        rcases List.mem_cons.mp hx with rfl | hx
        · exact List.mem_cons_self _ _
        · exact List.mem_cons_of_mem c0 (hrest x hx)

theorem moveI_count {a e : IExpr} {c : Consume} (h : moveI a = some (e, c)) (i : FId) :
    ([c.posId, c.negId] : List FId).count i + (exprIds e).count i
      = (exprIds a).count i := by
  obtain ⟨⟨pa, fsa⟩, ma, la⟩ := a
  simp only [moveI] at h
  split at h
  case h_2 => exact absurd h (by simp)
  case h_1 i1 n fs1 =>
    cases hex : extractUnique n ma with
    | none => simp [hex] at h
    | some r =>
      obtain ⟨ch, rest⟩ := r
      simp only [hex] at h
      have hcnt := extractUnique_count hex i
      cases hche : ch.fs with
      | nil => simp [hche] at h
      | cons hd cfs =>
        obtain ⟨i2, f2⟩ := hd
        cases f2 with
        | sel m => simp [hche] at h
        | selh m => simp [hche] at h
        | cat m => simp [hche] at h
        | lic m => simp [hche] at h
        | lce m =>
          simp only [hche] at h
          simp only [chainIds, hche, List.map_cons, List.count_cons] at hcnt
          split at h
          case isTrue hemp =>
            rw [List.isEmpty_iff] at hemp
            subst hemp
            simp only [Option.some.injEq, Prod.mk.injEq] at h
            obtain ⟨rfl, rfl⟩ := h
            simp only [exprIds, chainIds, List.map_cons, List.map_nil,
              List.count_append, List.count_cons, List.count_nil,
              List.nil_append] at hcnt ⊢
            omega
          case isFalse hemp =>
            simp only [Option.some.injEq, Prod.mk.injEq] at h
            obtain ⟨rfl, rfl⟩ := h
            simp only [exprIds, chainIds, moversIds_cons, List.map_cons,
              List.count_append, List.count_cons, List.count_nil,
              List.nil_append] at hcnt ⊢
            omega

theorem consumeIds_single (c : Consume) : consumeIds [c] = [c.posId, c.negId] := by
  simp [consumeIds]

theorem evalI_count (t : DTree) :
    ∀ n e cs n2, evalI t n = some (e, cs, n2) →
      n2 = n + leafCount t ∧
      ∀ i, (consumeIds cs).count i + (exprIds e).count i = (idsFrom t n).count i := by
  induction t with
  | leaf li =>
    intro n e cs n2 h
    simp only [evalI, Option.some.injEq, Prod.mk.injEq] at h
    obtain ⟨rfl, rfl, rfl⟩ := h
    refine ⟨by simp [leafCount], fun i => ?_⟩
    simp [consumeIds, exprIds, chainIds, moversIds, idsFrom]
  | merge t1 t2 ih1 ih2 =>
    intro n e cs n2 h
    cases hE1 : evalI t1 n with
    | none => simp [evalI, hE1] at h
    | some r1 =>
      obtain ⟨e1, cs1, n1⟩ := r1
      cases hE2 : evalI t2 n1 with
      | none => simp [evalI, hE1, hE2] at h
      | some r2 =>
        obtain ⟨e2, cs2, m2⟩ := r2
        cases hM : mergeI e1 e2 with
        | none => simp [evalI, hE1, hE2, hM] at h
        | some rc =>
          obtain ⟨e0, c⟩ := rc
          simp only [evalI, hE1, hE2, hM, Option.some.injEq, Prod.mk.injEq] at h
          obtain ⟨rfl, rfl, rfl⟩ := h
          obtain ⟨hn1, hc1⟩ := ih1 n e1 cs1 n1 hE1
          obtain ⟨hn2, hc2⟩ := ih2 n1 e2 cs2 m2 hE2
          subst hn1
          refine ⟨by simp only [leafCount]; omega, fun i => ?_⟩
          have h1 := hc1 i
          have h2 := hc2 i
          have h3 := mergeI_count hM i
          simp only [idsFrom, consumeIds_append, consumeIds_single,
            List.count_append] at h1 h2 h3 ⊢
          omega
  | hmerge t1 t2 ih1 ih2 =>
    intro n e cs n2 h
    cases hE1 : evalI t1 n with
    | none => simp [evalI, hE1] at h
    | some r1 =>
      obtain ⟨e1, cs1, n1⟩ := r1
      cases hE2 : evalI t2 n1 with
      | none => simp [evalI, hE1, hE2] at h
      | some r2 =>
        obtain ⟨e2, cs2, m2⟩ := r2
        cases hM : hmergeI e1 e2 with
        | none => simp [evalI, hE1, hE2, hM] at h
        | some rc =>
          obtain ⟨e0, c⟩ := rc
          simp only [evalI, hE1, hE2, hM, Option.some.injEq, Prod.mk.injEq] at h
          obtain ⟨rfl, rfl, rfl⟩ := h
          obtain ⟨hn1, hc1⟩ := ih1 n e1 cs1 n1 hE1
          obtain ⟨hn2, hc2⟩ := ih2 n1 e2 cs2 m2 hE2
          subst hn1
          refine ⟨by simp only [leafCount]; omega, fun i => ?_⟩
          have h1 := hc1 i
          have h2 := hc2 i
          have h3 := hmergeI_count hM i
          simp only [idsFrom, consumeIds_append, consumeIds_single,
            List.count_append] at h1 h2 h3 ⊢
          omega
  | move t ih =>
    intro n e cs n2 h
    cases hE : evalI t n with
    | none => simp [evalI, hE] at h
    | some r1 =>
      obtain ⟨e1, cs1, n1⟩ := r1
      cases hM : moveI e1 with
      | none => simp [evalI, hE, hM] at h
      | some rc =>
        obtain ⟨e0, c⟩ := rc
        simp only [evalI, hE, hM, Option.some.injEq, Prod.mk.injEq] at h
        obtain ⟨rfl, rfl, rfl⟩ := h
        obtain ⟨hn1, hc1⟩ := ih n e1 cs1 n1 hE
        refine ⟨by simp only [leafCount]; omega, fun i => ?_⟩
        have h1 := hc1 i
        have h3 := moveI_count hM i
        simp only [idsFrom, consumeIds_append, consumeIds_single,
          List.count_append] at h1 h3 ⊢
        omega

theorem fsLce_cons (p : FId × Feature) (fs : List (FId × Feature)) :
    fsLce (p :: fs) = (if isLce p.2 then 1 else 0) + fsLce fs := by
  by_cases hp : isLce p.2
  · simp [fsLce, List.filter_cons, hp, Nat.add_comm]
  · simp [fsLce, List.filter_cons, hp]

theorem fsLce_append (l1 l2 : List (FId × Feature)) :
    fsLce (l1 ++ l2) = fsLce l1 + fsLce l2 := by
  simp [fsLce, List.filter_append]

theorem featsLce_cons (f : Feature) (fs : List Feature) :
    featsLce (f :: fs) = (if isLce f then 1 else 0) + featsLce fs := by
  by_cases hp : isLce f
  · simp [featsLce, List.filter_cons, hp, Nat.add_comm]
  · simp [featsLce, List.filter_cons, hp]

theorem moversLce_cons (c : IChain) (l : List IChain) :
    moversLce (c :: l) = fsLce c.fs + moversLce l := by
  simp [moversLce]

theorem moversLce_append (l1 l2 : List IChain) :
    moversLce (l1 ++ l2) = moversLce l1 + moversLce l2 := by
  simp [moversLce]

theorem fsLce_tagFeats (j p : Nat) (fs : List Feature) :
    fsLce (tagFeats j p fs) = featsLce fs := by
  induction fs generalizing p with
  | nil => simp [tagFeats, fsLce, featsLce]
  | cons f fs ih =>
    simp only [tagFeats, fsLce_cons, featsLce_cons]
    rw [ih (p + 1)]

theorem mergeI_lce {a b e : IExpr} {c : Consume} (h : mergeI a b = some (e, c)) :
    exprLce e = exprLce a + exprLce b := by
  obtain ⟨⟨pa, fsa⟩, ma, la⟩ := a
  obtain ⟨⟨pb, fsb⟩, mb, lb⟩ := b
  simp only [mergeI] at h
  split at h
  case h_2 => exact absurd h (by simp)
  case h_1 i1 n fs1 i2 m fs2 =>
    split at h
    case isFalse => exact absurd h (by simp)
    case isTrue hnm =>
      split at h
      all_goals
        simp only [Option.some.injEq, Prod.mk.injEq] at h
        obtain ⟨rfl, rfl⟩ := h
      case isTrue hemp =>
        rw [List.isEmpty_iff] at hemp
        subst hemp
        simp only [exprLce, fsLce_cons, moversLce_append, isLce]
        simp [fsLce]
        omega
      case isFalse hemp =>
        simp only [exprLce, fsLce_cons, moversLce_cons, moversLce_append, isLce]
        simp only [if_false, Bool.false_eq_true]
        omega

theorem hmergeI_lce {a b e : IExpr} {c : Consume} (h : hmergeI a b = some (e, c)) :
    exprLce e = exprLce a + exprLce b := by
  obtain ⟨⟨pa, fsa⟩, ma, la⟩ := a
  obtain ⟨⟨pb, fsb⟩, mb, lb⟩ := b
  simp only [hmergeI] at h
  split at h
  case h_2 => exact absurd h (by simp)
  case h_1 i1 n fs1 i2 m fs2 =>
    split at h
    case isFalse => exact absurd h (by simp)
    case isTrue hcond =>
      obtain ⟨hnm, hla, hlb, hemp⟩ := hcond
      rw [List.isEmpty_iff] at hemp
      subst hemp
      simp only [Option.some.injEq, Prod.mk.injEq] at h
      obtain ⟨rfl, rfl⟩ := h
      simp only [exprLce, fsLce_cons, moversLce_append, isLce]
      simp [fsLce]
      omega

theorem extractUnique_lce {n : String} {l : List IChain} {c : IChain}
    {rest : List IChain} (h : extractUnique n l = some (c, rest)) :
    fsLce c.fs + moversLce rest = moversLce l := by
  induction l generalizing rest with
  | nil => simp [extractUnique] at h
  | cons c0 cs ih =>
    simp only [extractUnique] at h
    split at h
    case isTrue hfirst =>
      split at h
      case isTrue => exact absurd h (by simp)
      case isFalse =>
        simp only [Option.some.injEq, Prod.mk.injEq] at h
        obtain ⟨rfl, rfl⟩ := h
        simp [moversLce_cons]
    case isFalse hfirst =>
      cases hrec : extractUnique n cs with
      | none => rw [hrec] at h; exact absurd h (by simp)
      | some r =>
        obtain ⟨m, rest0⟩ := r
        rw [hrec] at h
        simp only [Option.some.injEq, Prod.mk.injEq] at h
        obtain ⟨rfl, rfl⟩ := h
        have := ih hrec
        simp only [moversLce_cons] at this ⊢
        omega

theorem moveI_lce {a e : IExpr} {c : Consume} (h : moveI a = some (e, c)) :
    exprLce a = exprLce e + 1 := by
  obtain ⟨⟨pa, fsa⟩, ma, la⟩ := a
  simp only [moveI] at h
  split at h
  case h_2 => exact absurd h (by simp)
  case h_1 i1 n fs1 =>
    cases hex : extractUnique n ma with
    | none => simp [hex] at h
    | some r =>
      obtain ⟨ch, rest⟩ := r
      simp only [hex] at h
      have hcnt := extractUnique_lce hex
      cases hche : ch.fs with
      | nil => simp [hche] at h
      | cons hd cfs =>
        obtain ⟨i2, f2⟩ := hd
        cases f2 with
        | sel m => simp [hche] at h
        | selh m => simp [hche] at h
        | cat m => simp [hche] at h
        | lic m => simp [hche] at h
        | lce m =>
          simp only [hche] at h
          rw [hche, fsLce_cons] at hcnt
          simp only [isLce, if_true] at hcnt
          split at h
          case isTrue hemp =>
            rw [List.isEmpty_iff] at hemp
            subst hemp
            simp only [Option.some.injEq, Prod.mk.injEq] at h
            obtain ⟨rfl, rfl⟩ := h
            simp [exprLce, fsLce_cons, isLce, fsLce] at hcnt ⊢
            omega
          case isFalse hemp =>
            simp only [Option.some.injEq, Prod.mk.injEq] at h
            obtain ⟨rfl, rfl⟩ := h
            simp [exprLce, fsLce_cons, moversLce_cons, isLce] at hcnt ⊢
            omega

theorem leavesList_hasTok {t : DTree} {n : Nat} {e : IExpr} {cs : List Consume}
    {n2 : Nat} (h : evalI t n = some (e, cs, n2)) (w : String) :
    exprHasTok e w → ∃ li ∈ leavesList t, w ∈ li.phon := by
  induction t generalizing n e cs n2 with
  | leaf li =>
    intro htok
    simp only [evalI, Option.some.injEq, Prod.mk.injEq] at h
    obtain ⟨rfl, rfl, rfl⟩ := h
    simp only [exprHasTok] at htok
    rcases htok with htok | ⟨ch, hch, _⟩
    · exact ⟨li, by simp [leavesList], htok⟩
    · simp at hch
  | merge t1 t2 ih1 ih2 =>
    intro htok
    cases hE1 : evalI t1 n with
    | none => simp [evalI, hE1] at h
    | some r1 =>
      obtain ⟨e1, cs1, n1⟩ := r1
      cases hE2 : evalI t2 n1 with
      | none => simp [evalI, hE1, hE2] at h
      | some r2 =>
        obtain ⟨e2, cs2, m2⟩ := r2
        cases hM : mergeI e1 e2 with
        | none => simp [evalI, hE1, hE2, hM] at h
        | some rc =>
          obtain ⟨e0, c⟩ := rc
          simp only [evalI, hE1, hE2, hM, Option.some.injEq, Prod.mk.injEq] at h
          obtain ⟨rfl, rfl, rfl⟩ := h
          have hsplit : exprHasTok e1 w ∨ exprHasTok e2 w := by
            obtain ⟨⟨p1, fsa⟩, m1, l1⟩ := e1
            obtain ⟨⟨p2, fsb⟩, m2', l2⟩ := e2
            simp only [mergeI] at hM
            split at hM
            case h_2 => exact absurd hM (by simp)
            case h_1 i1 nn fs1 i2 mm fs2 =>
              split at hM
              case isFalse => exact absurd hM (by simp)
              case isTrue hnm =>
                split at hM
                all_goals
                  simp only [Option.some.injEq, Prod.mk.injEq] at hM
                  obtain ⟨rfl, rfl⟩ := hM
                all_goals
                  simp only [exprHasTok, mergedPhon, List.mem_append] at htok ⊢
                case isTrue hemp =>
                  rcases htok with htok | ⟨ch, hch, hwch⟩
                  · split at htok
                    · rcases List.mem_append.mp htok with htok | htok
                      · exact Or.inl (Or.inl htok)
                      · exact Or.inr (Or.inl htok)
                    · rcases List.mem_append.mp htok with htok | htok
                      · exact Or.inr (Or.inl htok)
                      · exact Or.inl (Or.inl htok)
                  · rcases hch with hch | hch
                    · exact Or.inl (Or.inr ⟨ch, hch, hwch⟩)
                    · exact Or.inr (Or.inr ⟨ch, hch, hwch⟩)
                case isFalse hemp =>
                  rcases htok with htok | ⟨ch, hch, hwch⟩
                  · exact Or.inl (Or.inl htok)
                  · rcases List.mem_cons.mp hch with rfl | hch
                    · exact Or.inr (Or.inl hwch)
                    · rcases List.mem_append.mp hch with hch | hch
                      · exact Or.inl (Or.inr ⟨ch, hch, hwch⟩)
                      · exact Or.inr (Or.inr ⟨ch, hch, hwch⟩)
          simp only [leavesList]
          rcases hsplit with hs | hs
          · obtain ⟨li, hli, hw⟩ := ih1 hE1 hs
            exact ⟨li, List.mem_append_left _ hli, hw⟩
          · obtain ⟨li, hli, hw⟩ := ih2 hE2 hs
            exact ⟨li, List.mem_append_right _ hli, hw⟩
  | hmerge t1 t2 ih1 ih2 =>
    intro htok
    cases hE1 : evalI t1 n with
    | none => simp [evalI, hE1] at h
    | some r1 =>
      obtain ⟨e1, cs1, n1⟩ := r1
      cases hE2 : evalI t2 n1 with
      | none => simp [evalI, hE1, hE2] at h
      | some r2 =>
        obtain ⟨e2, cs2, m2⟩ := r2
        cases hM : hmergeI e1 e2 with
        | none => simp [evalI, hE1, hE2, hM] at h
        | some rc =>
          obtain ⟨e0, c⟩ := rc
          simp only [evalI, hE1, hE2, hM, Option.some.injEq, Prod.mk.injEq] at h
          obtain ⟨rfl, rfl, rfl⟩ := h
          have hsplit : exprHasTok e1 w ∨ exprHasTok e2 w := by
            obtain ⟨⟨p1, fsa⟩, m1, l1⟩ := e1
            obtain ⟨⟨p2, fsb⟩, m2', l2⟩ := e2
            simp only [hmergeI] at hM
            split at hM
            case h_2 => exact absurd hM (by simp)
            case h_1 i1 nn fs1 i2 mm fs2 =>
              split at hM
              case isFalse => exact absurd hM (by simp)
              case isTrue hcond =>
                simp only [Option.some.injEq, Prod.mk.injEq] at hM
                obtain ⟨rfl, rfl⟩ := hM
                simp only [exprHasTok, List.mem_append] at htok ⊢
                rcases htok with (htok | htok) | ⟨ch, hch, hwch⟩
                · exact Or.inr (Or.inl htok)
                · exact Or.inl (Or.inl htok)
                · rcases hch with hch | hch
                  · exact Or.inl (Or.inr ⟨ch, hch, hwch⟩)
                  · exact Or.inr (Or.inr ⟨ch, hch, hwch⟩)
          simp only [leavesList]
          rcases hsplit with hs | hs
          · obtain ⟨li, hli, hw⟩ := ih1 hE1 hs
            exact ⟨li, List.mem_append_left _ hli, hw⟩
          · obtain ⟨li, hli, hw⟩ := ih2 hE2 hs
            exact ⟨li, List.mem_append_right _ hli, hw⟩
  | move t ih =>
    intro htok
    cases hE : evalI t n with
    | none => simp [evalI, hE] at h
    | some r1 =>
      obtain ⟨e1, cs1, n1⟩ := r1
      cases hM : moveI e1 with
      | none => simp [evalI, hE, hM] at h
      | some rc =>
        obtain ⟨e0, c⟩ := rc
        simp only [evalI, hE, hM, Option.some.injEq, Prod.mk.injEq] at h
        obtain ⟨rfl, rfl, rfl⟩ := h
        have hsplit : exprHasTok e1 w := by
          obtain ⟨⟨p1, fsa⟩, m1, l1⟩ := e1
          simp only [moveI] at hM
          split at hM
          case h_2 => exact absurd hM (by simp)
          case h_1 i1 nn fs1 =>
            cases hex : extractUnique nn m1 with
            | none => simp [hex] at hM
            | some r =>
              obtain ⟨ch, rest⟩ := r
              simp only [hex] at hM
              obtain ⟨hchm, hrestm⟩ := extractUnique_mem hex
              cases hche : ch.fs with
              | nil => simp [hche] at hM
              | cons hd cfs =>
                obtain ⟨i2, f2⟩ := hd
                cases f2 with
                | sel m => simp [hche] at hM
                | selh m => simp [hche] at hM
                | cat m => simp [hche] at hM
                | lic m => simp [hche] at hM
                | lce m =>
                  simp only [hche] at hM
                  split at hM
                  all_goals
                    simp only [Option.some.injEq, Prod.mk.injEq] at hM
                    obtain ⟨rfl, rfl⟩ := hM
                  · simp only [exprHasTok, List.mem_append] at htok ⊢
                    rcases htok with (htok | htok) | ⟨ch2, hch2, hwch2⟩
                    · exact Or.inr ⟨ch, hchm, htok⟩
                    · exact Or.inl htok
                    · exact Or.inr ⟨ch2, hrestm ch2 hch2, hwch2⟩
                  · simp only [exprHasTok, List.mem_append] at htok ⊢
                    rcases htok with htok | ⟨ch2, hch2, hwch2⟩
                    · exact Or.inl htok
                    · rcases List.mem_cons.mp hch2 with heq | hch2
                      · refine Or.inr ⟨ch, hchm, ?_⟩
                        have hpe : ch2.phon = ch.phon := by rw [heq]
                        rw [hpe] at hwch2
                        exact hwch2
                      · exact Or.inr ⟨ch2, hrestm ch2 hch2, hwch2⟩
        obtain ⟨li, hli, hw⟩ := ih hE hsplit
        exact ⟨li, by simpa [leavesList] using hli, hw⟩

theorem evalI_lce (t : DTree) :
    ∀ n e cs n2, evalI t n = some (e, cs, n2) →
      treeLce t = moveCount t + exprLce e := by
  induction t with
  | leaf li =>
    intro n e cs n2 h
    simp only [evalI, Option.some.injEq, Prod.mk.injEq] at h
    obtain ⟨rfl, rfl, rfl⟩ := h
    simp [treeLce, leavesList, moveCount, exprLce, moversLce, fsLce_tagFeats]
  | merge t1 t2 ih1 ih2 =>
    intro n e cs n2 h
    cases hE1 : evalI t1 n with
    | none => simp [evalI, hE1] at h
    | some r1 =>
      obtain ⟨e1, cs1, n1⟩ := r1
      cases hE2 : evalI t2 n1 with
      | none => simp [evalI, hE1, hE2] at h
      | some r2 =>
        obtain ⟨e2, cs2, m2⟩ := r2
        cases hM : mergeI e1 e2 with
        | none => simp [evalI, hE1, hE2, hM] at h
        | some rc =>
          obtain ⟨e0, c⟩ := rc
          simp only [evalI, hE1, hE2, hM, Option.some.injEq, Prod.mk.injEq] at h
          obtain ⟨rfl, rfl, rfl⟩ := h
          have l1 := ih1 n e1 cs1 n1 hE1
          have l2 := ih2 n1 e2 cs2 m2 hE2
          have lm := mergeI_lce hM
          simp only [treeLce, leavesList, List.map_append, List.sum_append,
            moveCount] at l1 l2 ⊢
          omega
  | hmerge t1 t2 ih1 ih2 =>
    intro n e cs n2 h
    cases hE1 : evalI t1 n with
    | none => simp [evalI, hE1] at h
    | some r1 =>
      obtain ⟨e1, cs1, n1⟩ := r1
      cases hE2 : evalI t2 n1 with
      | none => simp [evalI, hE1, hE2] at h
      | some r2 =>
        obtain ⟨e2, cs2, m2⟩ := r2
        cases hM : hmergeI e1 e2 with
        | none => simp [evalI, hE1, hE2, hM] at h
        | some rc =>
          obtain ⟨e0, c⟩ := rc
          simp only [evalI, hE1, hE2, hM, Option.some.injEq, Prod.mk.injEq] at h
          obtain ⟨rfl, rfl, rfl⟩ := h
          have l1 := ih1 n e1 cs1 n1 hE1
          have l2 := ih2 n1 e2 cs2 m2 hE2
          have lm := hmergeI_lce hM
          simp only [treeLce, leavesList, List.map_append, List.sum_append,
            moveCount] at l1 l2 ⊢
          omega
  | move t ih =>
    intro n e cs n2 h
    cases hE : evalI t n with
    | none => simp [evalI, hE] at h
    | some r1 =>
      obtain ⟨e1, cs1, n1⟩ := r1
      cases hM : moveI e1 with
      | none => simp [evalI, hE, hM] at h
      | some rc =>
        obtain ⟨e0, c⟩ := rc
        simp only [evalI, hE, hM, Option.some.injEq, Prod.mk.injEq] at h
        obtain ⟨rfl, rfl, rfl⟩ := h
        have l1 := ih n e1 cs1 n1 hE
        have lm := moveI_lce hM
        simp only [treeLce, leavesList, moveCount] at l1 ⊢
        omega

theorem isExtractedB_elim {cfg : Config} {d : DTree} (h : isExtractedB cfg d = true) :
    ∃ e cs n2, evalI d 0 = some (e, cs, n2) ∧ completeB e = true ∧
      boundsOK cfg d = true ∧ lexiconOK cfg d = true ∧ pfOK cfg e = true ∧
      lfOK cfg d = true := by
  cases hE : evalI d 0 with
  | none => simp [isExtractedB, hE] at h
  | some r =>
    obtain ⟨e, cs, n2⟩ := r
    simp only [isExtractedB, hE, Bool.and_eq_true] at h
    exact ⟨e, cs, n2, rfl, h.1.1.1.1, h.1.1.1.2, h.1.1.2, h.1.2, h.2⟩

theorem completeB_elim {e : IExpr} (h : completeB e = true) :
    e.movers = [] ∧ ∃ r nm, e.head.fs = [(r, Feature.cat nm)] := by
  simp only [completeB, Bool.and_eq_true] at h
  obtain ⟨h1, h2⟩ := h
  refine ⟨List.isEmpty_iff.mp h1, ?_⟩
  rcases hfs : e.head.fs with _ | ⟨⟨r, f⟩, tl⟩
  · rw [hfs] at h2; simp [isCatSingleton] at h2
  · rcases tl with _ | ⟨hd2, tl2⟩
    · rw [hfs] at h2
      cases f with
      | cat nm => exact ⟨r, nm, rfl⟩
      | sel nm => simp [isCatSingleton] at h2
      | selh nm => simp [isCatSingleton] at h2
      | lic nm => simp [isCatSingleton] at h2
      | lce nm => simp [isCatSingleton] at h2
    · rw [hfs] at h2; simp [isCatSingleton] at h2

theorem solveAllLoop_sat_inv (cfg : Config) (oracle : SolverOracle) :
    ∀ fuel blocked acc ds,
      (∀ dr ∈ acc, isExtractedB cfg dr.tree = true) →
      List.Nodup (acc.map Derivation.tree) →
      (∀ dr ∈ acc, dr.tree ∈ blocked) →
      solveAllLoop cfg oracle fuel blocked acc = ParseOutcome.sat ds →
      (∀ dr ∈ ds, isExtractedB cfg dr.tree = true) ∧
        List.Nodup (ds.map Derivation.tree) := by
  intro fuel
  induction fuel with
  | zero =>
    intro blocked acc ds hext hnd hblk h
    simp only [solveAllLoop] at h
    split at h
    · exact absurd h (by simp)
    · simp only [ParseOutcome.sat.injEq] at h
      subst h
      exact ⟨hext, hnd⟩
  | succ fuel ih =>
    intro blocked acc ds hext hnd hblk h
    cases horacle : oracle blocked with
    | unsat =>
      simp only [solveAllLoop, horacle] at h
      split at h
      · exact absurd h (by simp)
      · simp only [ParseOutcome.sat.injEq] at h
        subst h
        exact ⟨hext, hnd⟩
    | timeout =>
      simp only [solveAllLoop, horacle] at h
      split at h
      · exact absurd h (by simp)
      · simp only [ParseOutcome.sat.injEq] at h
        subst h
        exact ⟨hext, hnd⟩
    | sat m =>
      simp only [solveAllLoop, horacle] at h
      split at h
      case isTrue hck =>
        rw [Bool.and_eq_true] at hck
        obtain ⟨hck1, hck2⟩ := hck
        have hnotblk : m.core ∉ blocked := by simpa using hck2
        refine ih (m.core :: blocked) (acc ++ [mkDerivation m.core]) ds ?_ ?_ ?_ h
        · intro dr hdr
          rcases List.mem_append.mp hdr with hdr | hdr
          · exact hext dr hdr
          · rw [List.mem_singleton] at hdr
            subst hdr
            exact hck1
        · rw [List.map_append]
          refine List.nodup_append.mpr ⟨hnd, by simp, ?_⟩
          intro x hx hx2
          simp only [List.map_cons, List.map_nil, List.mem_singleton, mkDerivation] at hx2
          subst hx2
          obtain ⟨dr, hdr, hdrt⟩ := List.mem_map.mp hx
          exact hnotblk (hdrt ▸ hblk dr hdr)
        · intro dr hdr
          rcases List.mem_append.mp hdr with hdr | hdr
          · exact List.mem_cons_of_mem _ (hblk dr hdr)
          · rw [List.mem_singleton] at hdr
            subst hdr
            exact List.mem_cons_self _ _
      case isFalse => exact absurd h (by simp)

theorem solveOnePath_sat {cfg : Config} {oracle : SolverOracle} {ds : List Derivation}
    (h : solveOnePath cfg oracle = ParseOutcome.sat ds) :
    (∀ dr ∈ ds, isExtractedB cfg dr.tree = true) ∧ ds.length = 1 := by
  cases horacle : oracle [] with
  | unsat => simp [solveOnePath, horacle] at h
  | timeout => simp [solveOnePath, horacle] at h
  | sat m =>
    simp only [solveOnePath, horacle] at h
    split at h
    case isTrue hck =>
      simp only [ParseOutcome.sat.injEq] at h
      subst h
      refine ⟨?_, rfl⟩
      intro dr hdr
      rw [List.mem_singleton] at hdr
      subst hdr
      exact hck
    case isFalse => exact absurd h (by simp)

theorem parseOp_sat_extracted {oracle : SolverOracle} {capacity : Nat → Nat → Nat → Nat}
    {fuel : Nat} {cfg : Config} {ds : List Derivation}
    (h : parseOp oracle capacity fuel cfg = ParseOutcome.sat ds) :
    (∀ dr ∈ ds, isExtractedB cfg dr.tree = true) ∧
      List.Nodup (ds.map Derivation.tree) := by
  simp only [parseOp] at h
  split at h
  · exact absurd h (by simp)
  · split at h
    · exact absurd h (by simp)
    · split at h
      · exact solveAllLoop_sat_inv cfg oracle fuel [] [] ds
          (by intro dr hdr; simp at hdr) (by simp) (by intro dr hdr; simp at hdr) h
      · obtain ⟨hext, hlen⟩ := solveOnePath_sat h
        refine ⟨hext, ?_⟩
        cases ds with
        | nil => simp
        | cons a tl =>
          cases tl with
          | nil => simp
          | cons b tl2 => simp at hlen

theorem parseOp_single {oracle : SolverOracle} {capacity : Nat → Nat → Nat → Nat}
    {fuel : Nat} {cfg : Config} {ds : List Derivation}
    (hmode : cfg.extract_all_parses = false)
    (h : parseOp oracle capacity fuel cfg = ParseOutcome.sat ds) : ds.length = 1 := by
  simp only [parseOp] at h
  split at h
  · exact absurd h (by simp)
  · split at h
    · exact absurd h (by simp)
    · split at h
      case isTrue hmode2 => rw [hmode] at hmode2; exact absurd hmode2 (by simp)
      case isFalse => exact (solveOnePath_sat h).2

theorem solveAllLoop_ne_config (cfg : Config) (oracle : SolverOracle) :
    ∀ fuel blocked acc,
      solveAllLoop cfg oracle fuel blocked acc ≠
        ParseOutcome.failure ParseError.configurationError := by
  intro fuel
  induction fuel with
  | zero =>
    intro blocked acc
    simp only [solveAllLoop]
    split <;> simp
  | succ fuel ih =>
    intro blocked acc
    cases horacle : oracle blocked with
    | unsat => simp only [solveAllLoop, horacle]; split <;> simp
    | timeout => simp only [solveAllLoop, horacle]; split <;> simp
    | sat m =>
      simp only [solveAllLoop, horacle]
      split
      · exact ih (m.core :: blocked) _
      · simp

theorem solveOnePath_ne_config (cfg : Config) (oracle : SolverOracle) :
    solveOnePath cfg oracle ≠ ParseOutcome.failure ParseError.configurationError := by
  cases horacle : oracle [] with
  | unsat => simp [solveOnePath, horacle]
  | timeout => simp [solveOnePath, horacle]
  | sat m =>
    simp only [solveOnePath, horacle]
    split <;> simp

theorem extracted_pf {cfg : Config} {d : DTree}
    (hpf : cfg.include_PF_constraints = true) (h : isExtractedB cfg d = true) :
    cfg.ic.pf = some (overtYield d) := by
  obtain ⟨e, cs, n2, hE, _, _, _, hp, _⟩ := isExtractedB_elim h
  simp only [pfOK, hpf, Bool.not_true, Bool.false_or, beq_iff_eq] at hp
  rw [hp]
  simp [overtYield, hE]

theorem cfgG0_not_extractable (d : DTree) : isExtractedB cfgG0 d = true → False := by
  intro h
  obtain ⟨e, cs, n2, hE, hcomp, hbounds, hlex, hpf, _⟩ := isExtractedB_elim h
  have hpfeq : e.head.phon = pfTargetG := by
    have hinc : cfgG0.include_PF_constraints = true := by rfl
    simp only [pfOK, hinc, Bool.not_true, Bool.false_or, beq_iff_eq] at hpf
    have hic : cfgG0.ic.pf = some pfTargetG := by rfl
    rw [hic] at hpf
    exact (Option.some.injEq _ _ ▸ hpf).symm
  have hwho : exprHasTok e "who" := by
    refine Or.inl ?_
    rw [hpfeq]
    simp [pfTargetG]
  obtain ⟨li, hli, hwtok⟩ := leavesList_hasTok hE "who" hwho
  have hmem : li ∈ allItems cfgG0 := by
    simp only [lexiconOK, List.all_eq_true] at hlex
    have hc := hlex li hli
    simpa using hc
  have hwhoLI : li = whoLI := by
    have : li = johnLI ∨ li = fearsLI ∨ li = everyoneLI ∨ li = whoLI ∨ li = knowsLI ∨
        li = herLI ∨ li = crelLI ∨ li = cdeclLI := by
      simpa [allItems, cfgG0, cfgG, lexG] using hmem
    rcases this with rfl | rfl | rfl | rfl | rfl | rfl | rfl | rfl
    · simp [johnLI] at hwtok
    · simp [fearsLI] at hwtok
    · simp [everyoneLI] at hwtok
    · rfl
    · simp [knowsLI] at hwtok
    · simp [herLI] at hwtok
    · simp [crelLI] at hwtok
    · simp [cdeclLI] at hwtok
  have hlce := evalI_lce d 0 e cs n2 hE
  have hexprlce : exprLce e = 0 := by
    obtain ⟨hmov, r, nm, hfs⟩ := completeB_elim hcomp
    simp [exprLce, hfs, hmov, moversLce, fsLce, isLce]
  have hbound : moveCount d ≤ 0 := by
    simp only [boundsOK, Bool.and_eq_true, decide_eq_true_eq] at hbounds
    have hb := hbounds.1.2
    have hz : cfgG0.max_num_movements = 0 := by rfl
    rw [hz] at hb
    exact hb
  have htl : 1 ≤ treeLce d := by
    have hone : featsLce whoLI.fs = 1 := by rfl
    have hmemmap : (1 : Nat) ∈ (leavesList d).map (fun li => featsLce li.fs) := by
      refine List.mem_map.mpr ⟨whoLI, ?_, hone⟩
      exact hwhoLI ▸ hli
    exact List.single_le_sum (fun x _ => Nat.zero_le x) 1 hmemmap
  rw [treeLce] at htl
  rw [treeLce] at hlce
  omega

/-- C1 (counterexample): the claim as stated is false - in the extracted
one-leaf derivation over `helloLI`, the root's category feature instance
(identifier (0, 0)) belongs to a lexical item participating in the final
tree, yet it is consumed by no merge, move or head-move operation (the
consumption trace is empty), so it is not consumed by exactly one
operation. -/
theorem c1_feature_consumption_counterexample :
    isExtractedB cfgSingle dSingle = true ∧ (0, 0) ∈ allIds dSingle ∧
      (consumedIdsOf dSingle).count (0, 0) = 0 := by decide

/-- C1 (amended): for every derivation satisfying the schema constraints,
no feature instance is consumed by two operations, the root retains
exactly one unchecked instance - its final category feature - and every
other feature instance of the used lexical items is consumed by exactly
one merge, move or head-move operation. -/
theorem c1_feature_consumption (cfg : Config) (d : DTree)
    (h : isExtractedB cfg d = true) :
    (∀ i : FId, (consumedIdsOf d).count i ≤ 1) ∧
    ∃ r nm, rootFs d = [(r, Feature.cat nm)] ∧
      ∀ i ∈ allIds d, i ≠ r → (consumedIdsOf d).count i = 1 := by
  obtain ⟨e, cs, n2, hE, hcomp, _, _, _, _⟩ := isExtractedB_elim h
  obtain ⟨hmov, r, nm, hfs⟩ := completeB_elim hcomp
  have hmain := (evalI_count d 0 e cs n2 hE).2
  have hcons : consumedIdsOf d = consumeIds cs := by
    simp [consumedIdsOf, consumedOf, hE]
  have hroot : rootFs d = e.head.fs := by simp [rootFs, hE]
  have hexpr : exprIds e = [r] := by
    simp [exprIds, chainIds, hfs, hmov, moversIds]
  constructor
  · intro i
    have h1 := hmain i
    have h2 := idsFrom_count_le_one d 0 i
    rw [hcons]
    omega
  · refine ⟨r, nm, by rw [hroot, hfs], ?_⟩
    intro i hmem hne
    have h1 := hmain i
    have h2 := idsFrom_count_le_one d 0 i
    have h3 : (idsFrom d 0).count i ≠ 0 := by
      rw [Ne, List.count_eq_zero]
      intro hnm2
      exact hnm2 (by simpa [allIds] using hmem)
    have h4 : (exprIds e).count i = 0 := by
      rw [hexpr, List.count_eq_zero, List.mem_singleton]
      exact hne
    rw [hcons]
    omega

/-- C1 (witness): the amended consumption property instantiated at the
end-to-end relative-clause derivation. -/
theorem c1_feature_consumption_witness :
    (∀ i : FId, (consumedIdsOf dG).count i ≤ 1) ∧
    ∃ r nm, rootFs dG = [(r, Feature.cat nm)] ∧
      ∀ i ∈ allIds dG, i ≠ r → (consumedIdsOf dG).count i = 1 :=
  c1_feature_consumption cfgG dG (by decide)

/-- C2: whenever the PF-constraint toggle is enabled, every Derivation
the parse operation returns has its movement-reordered overt-leaf
sequence equal to the InterfaceCondition's PF target, token for token. -/
theorem c2_pf_faithfulness (oracle : SolverOracle)
    (capacity : Nat → Nat → Nat → Nat) (fuel : Nat) (cfg : Config)
    (ds : List Derivation) (dr : Derivation)
    (hpf : cfg.include_PF_constraints = true)
    (hrun : parseOp oracle capacity fuel cfg = ParseOutcome.sat ds)
    (hdr : dr ∈ ds) :
    cfg.ic.pf = some (overtYield dr.tree) :=
  extracted_pf hpf ((parseOp_sat_extracted hrun).1 dr hdr)

/-- C2 (witness): PF faithfulness instantiated at the end-to-end
scenario run. -/
theorem c2_pf_faithfulness_witness :
    cfgG.include_PF_constraints = true ∧
    parseOp oracleG capacityG 4 cfgG = ParseOutcome.sat [mkDerivation dG] ∧
    cfgG.ic.pf = some (overtYield (mkDerivation dG).tree) :=
  ⟨rfl, by decide,
    c2_pf_faithfulness oracleG capacityG 4 cfgG [mkDerivation dG] (mkDerivation dG)
      rfl (by decide) (by decide)⟩

/-- C3: pointwise dominance of the bound triple preserves satisfiability
of the parse problem - a derivation satisfying the schema at the smaller
bounds satisfies it at the larger bounds. -/
theorem c3_bounds_monotonicity (cfg : Config) (b1 b2 b3 c1 c2 c3 : Nat)
    (h1 : b1 ≤ c1) (h2 : b2 ≤ c2) (h3 : b3 ≤ c3)
    (hsat : SATwithin cfg b1 b2 b3) : SATwithin cfg c1 c2 c3 := by
  obtain ⟨d, hd⟩ := hsat
  refine ⟨d, ?_⟩
  obtain ⟨e, cs, n2, hE, hcomp, hbounds, hlex, hpf, hlf⟩ := isExtractedB_elim hd
  simp only [isExtractedB, hE, Bool.and_eq_true]
  refine ⟨⟨⟨⟨hcomp, ?_⟩, ?_⟩, ?_⟩, ?_⟩
  · simp only [boundsOK, Bool.and_eq_true, decide_eq_true_eq, withBounds] at hbounds ⊢
    omega
  · simpa [lexiconOK, allItems, withBounds] using hlex
  · simpa [pfOK, withBounds] using hpf
  · simpa [lfOK, withBounds] using hlf

/-- C3 (witness): satisfiability at the zero bounds for the minimal
grammar transfers to the dominating bounds (2, 3, 1). -/
theorem c3_bounds_monotonicity_witness :
    SATwithin cfgSingle 0 0 0 ∧ SATwithin cfgSingle 2 3 1 :=
  ⟨⟨dSingle, by decide⟩,
    c3_bounds_monotonicity cfgSingle 0 0 0 2 3 1 (by decide) (by decide) (by decide)
      ⟨dSingle, by decide⟩⟩

/-- C4: the end-to-end relative-clause scenario - with the modelled
lexicon, the six-token PF target, the corresponding LF target and bounds
{6, 6, 4}, the parse operation returns SAT with a derivation satisfying
the schema whose root carries no unchecked selector or licensor feature
and whose overt-leaf order is exactly the six-token target. -/
theorem c4_end_to_end :
    parseOp oracleG capacityG 4 cfgG = ParseOutcome.sat [mkDerivation dG] ∧
    isExtractedB cfgG dG = true ∧
    rootNoUncheckedB dG = true ∧
    overtYield dG = ["John", "fears", "everyone", "who", "knows", "her"] := by
  refine ⟨by decide, by decide, by decide, by decide⟩

/-- C5: the invocation surface - a parse configuration consists of
exactly the lexicon, the interface condition, the extra lexical items,
the three toggles and the three bound parameters, and every invocation of
the parse operation returns derivations (one or many), UNSAT (zero
derivations), TIMEOUT, or a typed failure. -/
theorem c5_invocation_surface :
    (∀ cfg : Config, ∃ lex ic extra pf lf xall b1 b2 b3,
        cfg = Config.mk lex ic extra pf lf xall b1 b2 b3) ∧
    (∀ (oracle : SolverOracle) (capacity : Nat → Nat → Nat → Nat) (fuel : Nat)
        (cfg : Config),
        (∃ ds, parseOp oracle capacity fuel cfg = ParseOutcome.sat ds) ∨
        parseOp oracle capacity fuel cfg = ParseOutcome.unsat ∨
        parseOp oracle capacity fuel cfg = ParseOutcome.timeout ∨
        (∃ e, parseOp oracle capacity fuel cfg = ParseOutcome.failure e)) := by
  constructor
  · intro cfg
    obtain ⟨lex, ic, extra, pf, lf, xall, b1, b2, b3⟩ := cfg
    exact ⟨lex, ic, extra, pf, lf, xall, b1, b2, b3, rfl⟩
  · intro oracle capacity fuel cfg
    cases h : parseOp oracle capacity fuel cfg with
    | sat ds => exact Or.inl ⟨ds, rfl⟩
    | unsat => exact Or.inr (Or.inl rfl)
    | timeout => exact Or.inr (Or.inr (Or.inl rfl))
    | failure e => exact Or.inr (Or.inr (Or.inr ⟨e, rfl⟩))

/-- C6: the PF and LF toggles may be disabled independently (no
configuration with at least one toggle enabled ever fails with a
ConfigurationError), and when both are disabled the parse operation fails
with a ConfigurationError without consulting the solver backend (the
outcome is independent of the backend oracle). -/
theorem c6_toggle_validation :
    (∀ (oracle oracle2 : SolverOracle) (capacity : Nat → Nat → Nat → Nat)
        (fuel : Nat) (cfg : Config),
        cfg.include_PF_constraints = false → cfg.include_LF_constraints = false →
        parseOp oracle capacity fuel cfg =
            ParseOutcome.failure ParseError.configurationError ∧
          parseOp oracle capacity fuel cfg = parseOp oracle2 capacity fuel cfg) ∧
    (∀ (oracle : SolverOracle) (capacity : Nat → Nat → Nat → Nat) (fuel : Nat)
        (cfg : Config),
        cfg.include_PF_constraints = true ∨ cfg.include_LF_constraints = true →
        parseOp oracle capacity fuel cfg ≠
          ParseOutcome.failure ParseError.configurationError) := by
  constructor
  · intro oracle oracle2 capacity fuel cfg hpf hlf
    constructor
    · simp [parseOp, hpf, hlf]
    · simp [parseOp, hpf, hlf]
  · intro oracle capacity fuel cfg htog
    have hcond : ¬(cfg.include_PF_constraints = false ∧
        cfg.include_LF_constraints = false) := by
      rcases htog with h | h <;> simp [h]
    simp only [parseOp, if_neg hcond]
    split
    · simp
    · split
      · exact solveAllLoop_ne_config cfg oracle fuel [] []
      · exact solveOnePath_ne_config cfg oracle

/-- C6 (witness): the both-toggles-off configuration fails with a
ConfigurationError independently of the backend, while the PF-only and
LF-only configurations never produce a ConfigurationError. -/
theorem c6_toggle_validation_witness :
    (cfgOff.include_PF_constraints = false ∧ cfgOff.include_LF_constraints = false ∧
      parseOp oracleUnsat capacityG 3 cfgOff =
        ParseOutcome.failure ParseError.configurationError ∧
      parseOp oracleUnsat capacityG 3 cfgOff = parseOp oracleSingle capacityG 3 cfgOff) ∧
    (cfgSingle.include_PF_constraints = true ∧ cfgSingle.include_LF_constraints = false ∧
      parseOp oracleSingle capacityG 3 cfgSingle ≠
        ParseOutcome.failure ParseError.configurationError) ∧
    (cfgLFonly.include_PF_constraints = false ∧ cfgLFonly.include_LF_constraints = true ∧
      parseOp oracleUnsat capacityG 3 cfgLFonly ≠
        ParseOutcome.failure ParseError.configurationError) := by
  refine ⟨⟨rfl, rfl, ?_, ?_⟩, ⟨rfl, rfl, ?_⟩, ⟨rfl, rfl, ?_⟩⟩
  · exact (c6_toggle_validation.1 oracleUnsat oracleSingle capacityG 3 cfgOff rfl rfl).1
  · exact (c6_toggle_validation.1 oracleUnsat oracleSingle capacityG 3 cfgOff rfl rfl).2
  · exact c6_toggle_validation.2 oracleSingle capacityG 3 cfgSingle (Or.inl rfl)
  · exact c6_toggle_validation.2 oracleUnsat capacityG 3 cfgLFonly (Or.inr rfl)

/-- C7: in all-parses mode the Derivations returned by the
blocking-clause enumeration are pairwise distinct under canonical
projection (no two returned derivation trees coincide), and with the
all-parses toggle disabled a SAT outcome carries exactly one
Derivation. -/
theorem c7_enumeration_distinctness :
    (∀ (oracle : SolverOracle) (capacity : Nat → Nat → Nat → Nat) (fuel : Nat)
        (cfg : Config) (ds : List Derivation),
        cfg.extract_all_parses = true →
        parseOp oracle capacity fuel cfg = ParseOutcome.sat ds →
        List.Nodup (ds.map Derivation.tree)) ∧
    (∀ (oracle : SolverOracle) (capacity : Nat → Nat → Nat → Nat) (fuel : Nat)
        (cfg : Config) (ds : List Derivation),
        cfg.extract_all_parses = false →
        parseOp oracle capacity fuel cfg = ParseOutcome.sat ds →
        ds.length = 1) := by
  constructor
  · intro oracle capacity fuel cfg ds _ h
    exact (parseOp_sat_extracted h).2
  · intro oracle capacity fuel cfg ds hmode h
    exact parseOp_single hmode h

/-- C7 (witness): the ambiguous one-word grammar enumerated through the
two-model oracle yields two derivations with distinct canonical
projections, and the single-solution mode returns exactly one. -/
theorem c7_enumeration_distinctness_witness :
    (cfgAmb.extract_all_parses = true ∧
      parseOp oracleAmb capacityG 5 cfgAmb =
        ParseOutcome.sat [mkDerivation dAmbA, mkDerivation dAmbB] ∧
      List.Nodup (([mkDerivation dAmbA, mkDerivation dAmbB].map Derivation.tree))) ∧
    (cfgSingle.extract_all_parses = false ∧
      parseOp oracleSingle capacityG 3 cfgSingle =
        ParseOutcome.sat [mkDerivation dSingle] ∧
      ([mkDerivation dSingle] : List Derivation).length = 1) := by
  refine ⟨⟨rfl, by decide, ?_⟩, ⟨rfl, by decide, ?_⟩⟩
  · exact c7_enumeration_distinctness.1 oracleAmb capacityG 5 cfgAmb
      [mkDerivation dAmbA, mkDerivation dAmbB] rfl (by decide)
  · exact c7_enumeration_distinctness.2 oracleSingle capacityG 3 cfgSingle
      [mkDerivation dSingle] rfl (by decide)

/-- C8: when the PF target requires more overt lexical items than the
schema can host under the given bounds, the parse operation fails with a
BoundExceededError, and the outcome is independent of the backend oracle
(no constraint is solved). -/
theorem c8_bound_exceeded_fail_fast (oracle oracle2 : SolverOracle)
    (capacity : Nat → Nat → Nat → Nat) (fuel : Nat) (cfg : Config)
    (htog : cfg.include_PF_constraints = true ∨ cfg.include_LF_constraints = true)
    (hover : capacity cfg.max_num_empty_lexical_items cfg.max_num_movements
        cfg.max_num_head_movements < requiredOvert cfg) :
    parseOp oracle capacity fuel cfg =
        ParseOutcome.failure ParseError.boundExceededError ∧
      parseOp oracle capacity fuel cfg = parseOp oracle2 capacity fuel cfg := by
  have hcond : ¬(cfg.include_PF_constraints = false ∧
      cfg.include_LF_constraints = false) := by
    rcases htog with h | h <;> simp [h]
  have h1 : parseOp oracle capacity fuel cfg =
      ParseOutcome.failure ParseError.boundExceededError := by
    simp only [parseOp, if_neg hcond, if_pos hover]
  have h2 : parseOp oracle2 capacity fuel cfg =
      ParseOutcome.failure ParseError.boundExceededError := by
    simp only [parseOp, if_neg hcond, if_pos hover]
  exact ⟨h1, h1.trans h2.symm⟩

/-- C8 (witness): under the zero-capacity schema the one-token PF target
cannot be hosted and the parse fails fast with a BoundExceededError for
any backend. -/
theorem c8_bound_exceeded_fail_fast_witness :
    capacityZero cfgSingle.max_num_empty_lexical_items cfgSingle.max_num_movements
        cfgSingle.max_num_head_movements < requiredOvert cfgSingle ∧
    parseOp oracleSingle capacityZero 3 cfgSingle =
        ParseOutcome.failure ParseError.boundExceededError ∧
    parseOp oracleSingle capacityZero 3 cfgSingle =
      parseOp oracleUnsat capacityZero 3 cfgSingle := by
  refine ⟨by decide, ?_, ?_⟩
  · exact (c8_bound_exceeded_fail_fast oracleSingle oracleUnsat capacityZero 3 cfgSingle
      (Or.inl rfl) (by decide)).1
  · exact (c8_bound_exceeded_fail_fast oracleSingle oracleUnsat capacityZero 3 cfgSingle
      (Or.inl rfl) (by decide)).2

/-- C9: on the relative-clause scenario with `max_num_movements = 0` -
where any derivation matching the PF target must use the wh item, whose
licensee only a move can consume - the parse operation returns the
ordinary UNSAT outcome for every backend that does not time out and whose
SAT answers are genuine models; UNSAT is a normal value distinct from
TIMEOUT and from every typed failure. -/
theorem c9_unsat_when_no_movements (oracle : SolverOracle)
    (capacity : Nat → Nat → Nat → Nat) (fuel : Nat)
    (hcap : requiredOvert cfgG0 ≤ capacity cfgG0.max_num_empty_lexical_items
        cfgG0.max_num_movements cfgG0.max_num_head_movements)
    (hnt : oracle [] ≠ SolverVerdict.timeout)
    (hsound : ∀ m, oracle [] = SolverVerdict.sat m →
      isExtractedB cfgG0 m.core = true) :
    parseOp oracle capacity fuel cfgG0 = ParseOutcome.unsat ∧
    ParseOutcome.unsat ≠ ParseOutcome.timeout ∧
    ∀ e, ParseOutcome.unsat ≠ ParseOutcome.failure e := by
  refine ⟨?_, by simp, by simp⟩
  have hcond : ¬(cfgG0.include_PF_constraints = false ∧
      cfgG0.include_LF_constraints = false) := by
    intro hc
    exact absurd hc.1 (by decide)
  have hover : ¬(capacity cfgG0.max_num_empty_lexical_items cfgG0.max_num_movements
      cfgG0.max_num_head_movements < requiredOvert cfgG0) := by omega
  have hmode : cfgG0.extract_all_parses = false := by decide
  simp only [parseOp, if_neg hcond, if_neg hover, hmode, Bool.false_eq_true, if_false]
  cases horacle : oracle [] with
  | unsat => simp [solveOnePath, horacle]
  | timeout => exact absurd horacle hnt
  | sat m =>
    exact absurd (hsound m horacle) (cfgG0_not_extractable m.core)

/-- C9 (witness): the negative scenario run with an honest UNSAT
backend. -/
theorem c9_unsat_when_no_movements_witness :
    requiredOvert cfgG0 ≤ capacityG cfgG0.max_num_empty_lexical_items
        cfgG0.max_num_movements cfgG0.max_num_head_movements ∧
    parseOp oracleUnsat capacityG 3 cfgG0 = ParseOutcome.unsat := by
  refine ⟨by decide, ?_⟩
  refine (c9_unsat_when_no_movements oracleUnsat capacityG 3 (by decide) (by decide) ?_).1
  intro m hm
  exact absurd hm (by simp [oracleUnsat])

/-- C10 (counterexample): the claim as stated is false - with
`example_idx = 0` and `example_code = "AB"`, the code is not one of the
characters A through H, yet Python's substring semantics of
`example_code in 'ABCDEFGH'` lets both assertions pass and the call
proceeds to read files and invoke the parser. -/
theorem c10_assertion_gate_counterexample :
    (process_example 0 "AB").outcome = none ∧
    (process_example 0 "AB").parserInvoked = true ∧
    ("AB" ∉ (["A", "B", "C", "D", "E", "F", "G", "H"] : List String)) := by decide

/-- C10 (amended): `process_example` fails with an AssertionError -
reading no file and invoking no parser - exactly when `example_idx` is
outside `0 ≤ example_idx < 8` or `example_code` is not a contiguous
substring of "ABCDEFGH"; under the preconditions both assertions pass and
the call reads the lexicon and corpus files and invokes the parser. -/
theorem c10_assertion_gate (example_idx : Int) (example_code : String) :
    ((¬(0 ≤ example_idx ∧ example_idx < 8) ∨
        pyInStr example_code "ABCDEFGH" = false) →
      process_example example_idx example_code =
        ⟨[], false, some PyError.assertionError⟩) ∧
    ((0 ≤ example_idx ∧ example_idx < 8) ∧
        pyInStr example_code "ABCDEFGH" = true →
      (process_example example_idx example_code).outcome = none ∧
      (process_example example_idx example_code).filesRead =
        ["experiment-data/lexicon-" ++ example_code ++ ".json",
         "experiment-data/corpus-of-interface-conditions.json"] ∧
      (process_example example_idx example_code).parserInvoked = true) := by
  constructor
  · intro h
    rcases h with h | h
    · simp [process_example, h]
    · by_cases hr : 0 ≤ example_idx ∧ example_idx < 8
      · simp [process_example, hr, h]
      · simp [process_example, hr]
  · intro h
    obtain ⟨hr, hs⟩ := h
    simp [process_example, hr, hs]

/-- C10 (witness): the amended assertion gate at concrete inputs - an
out-of-range index, a code that is not a substring, and a valid call. -/
theorem c10_assertion_gate_witness :
    (¬((0 : Int) ≤ 9 ∧ (9 : Int) < 8) ∧
      process_example 9 "A" = ⟨[], false, some PyError.assertionError⟩) ∧
    (pyInStr "Z" "ABCDEFGH" = false ∧
      process_example 0 "Z" = ⟨[], false, some PyError.assertionError⟩) ∧
    ((0 : Int) ≤ 2 ∧ (2 : Int) < 8 ∧ pyInStr "C" "ABCDEFGH" = true ∧
      (process_example 2 "C").outcome = none) := by
  refine ⟨⟨by decide, ?_⟩, ⟨by decide, ?_⟩, by decide, by decide, by decide, ?_⟩
  · exact (c10_assertion_gate 9 "A").1 (Or.inl (by decide))
  · exact (c10_assertion_gate 0 "Z").1 (Or.inr (by decide))
  · exact ((c10_assertion_gate 2 "C").2 ⟨⟨by decide, by decide⟩, by decide⟩).1

end MGSMT

